import Mathlib

/-! Dataflow graph engine (`Source/Graph.h`)

A shallow embedding of `struct Graph` and its nested `Pin`, `Node` and `Edge`,
followed by theorems about its registry operations, value propagation and
traversals.

Representation of the C++ objects:

* a `Node*` is the address of the node object, a natural number; the node
  collection holds the node objects together with their addresses;
* an `Edge*` is the edge object together with its address, so two edges with
  the same end points are still two different pointers;
* a `Pin*` is the triple the `Pin` constructor stores (kind, order, owning
  node): the `Node` constructor is the only place that creates pins and it
  gives every pin of one node a different (kind, order);
* `Node::graph` is the back pointer to the one graph that created the node
  (`addNode` passes `this`); the embedding passes that graph explicitly;
* following a `Node*` reads a memory that gives the node object stored at
  every address; the node objects of the node collection are part of it, and
  it also holds the nodes that are not in the collection of this graph;
* the calls a traversal makes to `visit`, and the calls propagation makes to
  `Listener::onData`, are appended to a log that is threaded through the
  functions; recursion that the source leaves unguarded takes a fuel argument.
-/

namespace JuceGraph

/-! ## Data model -/

/-- The `enum class PinType { In, Out }`. -/
inductive PinType where
  | In
  | Out
  deriving DecidableEq, Repr

/-- The `struct Pin`: members `pinType`, `order`, `node` (address of the owner). -/
structure Pin where
  pinType : PinType
  order : Int
  node : Nat
  deriving DecidableEq, Repr

/-- The `struct Node` (without the graph back pointer): `addr` is the address
of the object, `listeners` holds the registered `Listener*` values. -/
structure Node where
  addr : Nat
  name : String
  ins : List Pin
  outs : List Pin
  listeners : List Nat
  deriving DecidableEq, Repr

/-- The `struct Edge`: `addr` is the address of the object. -/
structure Edge where
  addr : Nat
  source : Pin
  target : Pin
  deriving DecidableEq, Repr

/-- The `struct Graph`: the two owned arrays, in insertion order. -/
structure Graph where
  nodes : List Node
  edges : List Edge
  deriving DecidableEq, Repr

/-- One recorded invocation `listener->onData (sourceNode, sourcePin, data)`. -/
structure Call (V : Type) where
  listener : Nat
  sourceNode : Nat
  sourcePin : Pin
  data : V
  deriving DecidableEq, Repr

/-- The way a modelled call can fail to return: the recursion budget ran out. -/
inductive Fault where
  | outOfFuel
  deriving DecidableEq, Repr

/-- Modelled from the spec: the error taxonomy of the error-handling section
(`NotFound`, `InvalidConnection`, `CycleDetected`); `Graph.h` declares no
error type at all. -/
inductive GraphError where
  | NotFound
  | InvalidConnection
  | CycleDetected
  deriving DecidableEq, Repr

/-! ## Library containers -/

/-- Modelled from the spec: `OwnedArray::add` (the JUCE container is not part of
the sources) appends the object at the end of the collection. -/
def OwnedArray.add {α : Type} (xs : List α) (x : α) : List α :=
  xs ++ [x]

/-- Modelled from the spec: `OwnedArray::getLast` gives the last object of the
collection, and nothing (a null pointer) when the collection is empty. -/
def OwnedArray.getLast {α : Type} (xs : List α) : Option α :=
  xs.getLast?

/-- Modelled from the spec: `OwnedArray::removeObject` removes the first slot
holding the given pointer and leaves the collection alone when no slot does. -/
def OwnedArray.removeObject {α : Type} (xs : List α) (isObject : α → Bool) : List α :=
  xs.eraseP isObject

/-- Modelled from the spec: `ListenerList::add` registers a listener after the
ones already registered. -/
def ListenerList.add (listeners : List Nat) (listener : Nat) : List Nat :=
  listeners ++ [listener]

/-- Modelled from the spec: `ListenerList::call (&Listener::onData, ...)`
notifies every registered listener, in registration order; each listener
records the call it receives. -/
def ListenerList.call {V : Type} (listeners : List Nat) (sourceNode : Nat) (sourcePin : Pin)
    (data : V) (log : List (Call V)) : List (Call V) :=
  listeners.foldl (fun acc l => acc ++ [Call.mk l sourceNode sourcePin data]) log

/-! ## `Node` -/

/-- One constructor loop `for (auto i = 0; i < num; i++) pins.add (new Pin (kind, this, i))`. -/
def Node.makePins (pinType : PinType) (self : Nat) (num : Int) : List Pin :=
  (List.range num.toNat).foldl
    (fun (pins : List Pin) (i : Nat) => OwnedArray.add pins (Pin.mk pinType (Int.ofNat i) self)) []

/-- The constructor `Node::Node (graph, name, numIns, numOuts)` building the object at `self`. -/
def Node.new (self : Nat) (name : String) (numIns numOuts : Int) : Node :=
  { addr := self
    name := name
    ins := Node.makePins PinType.In self numIns
    outs := Node.makePins PinType.Out self numOuts
    listeners := [] }

/-- The member `Node::addListener`. -/
def Node.addListener (n : Node) (listener : Nat) : Node :=
  { n with listeners := ListenerList.add n.listeners listener }

/-- The member `Node::flow (source, data)`: notify the listeners of this node. -/
def Node.flow {V : Type} (n : Node) (source : Pin) (data : V) (log : List (Call V)) :
    List (Call V) :=
  ListenerList.call n.listeners n.addr source data log

/-! ## `Graph` registry -/

/-- The empty graph. -/
def Graph.empty : Graph :=
  { nodes := [], edges := [] }

/-- The node object of the node collection stored at that address, if any. -/
def Graph.findNode (g : Graph) (addr : Nat) : Option Node :=
  g.nodes.find? (fun n => n.addr == addr)

/-- Dereference of a `Node*` through memory: `mem` gives the node object stored
at every address, and `this` of the object reached through address `a` is `a`. -/
def Memory.deref (mem : Nat → Node) (a : Nat) : Node :=
  { mem a with addr := a }

/-- The memory in which the node objects of the node collection are stored at
their addresses, `outside` giving the node objects at all other addresses (the
nodes that are not in the collection of this graph). -/
def Graph.memory (g : Graph) (outside : Nat → Node) : Nat → Node :=
  fun a =>
    match g.findNode a with
    | some n => n
    | none => outside a

/-- A memory holding, at every address, a node object without pins and without
listeners. -/
def Memory.blank : Nat → Node :=
  fun a => Node.new a "" 0 0

/-- The call `node->addListener (listener)` on the node object stored at `node`. -/
def Graph.addListenerAt (g : Graph) (node : Nat) (listener : Nat) : Graph :=
  { g with nodes := g.nodes.map (fun n => if n.addr = node then n.addListener listener else n) }

/-- The member `Graph::addNode`; `self` is the address `new Node` returns. -/
def Graph.addNode (g : Graph) (self : Nat) (name : String) (numIns numOuts : Int) :
    Graph × Option Node :=
  let nodes := OwnedArray.add g.nodes (Node.new self name numIns numOuts)
  ({ g with nodes := nodes }, OwnedArray.getLast nodes)

/-- The member `Graph::addEdge`; `self` is the address `new Edge` returns. -/
def Graph.addEdge (g : Graph) (self : Nat) (source target : Pin) : Graph × Option Edge :=
  let edges := OwnedArray.add g.edges (Edge.mk self source target)
  ({ g with edges := edges }, OwnedArray.getLast edges)

/-- The member `Graph::removeEdge`. -/
def Graph.removeEdge (g : Graph) (edge : Edge) : Graph :=
  { g with edges := OwnedArray.removeObject g.edges (fun e => e == edge) }

/-- The call `removeEdge (edge)` as its caller sees it: the member is `void` and
contains no `throw`, so the call always returns normally. -/
def Graph.removeEdgeCall (g : Graph) (edge : Edge) : Except GraphError Graph :=
  Except.ok (g.removeEdge edge)

/-- The member `Graph::removeNode`. -/
def Graph.removeNode (g : Graph) (node : Nat) : Graph :=
  let edgesToRemove := g.edges.foldl
    (fun acc e => if e.source.node = node ∨ e.target.node = node then acc ++ [e] else acc) []
  let g1 := edgesToRemove.foldl (fun acc e => acc.removeEdge e) g
  { g1 with nodes := OwnedArray.removeObject g1.nodes (fun n => n.addr == node) }

/-- The member `Graph::targets (const Pin*)`. -/
def Graph.targets (g : Graph) (source : Pin) : List Pin :=
  g.edges.foldl (fun ret e => if e.source = source then ret ++ [e.target] else ret) []

/-- The member `Graph::targets (const Node*)`. -/
def Graph.targetsNode (g : Graph) (source : Nat) : List Nat :=
  g.edges.foldl (fun ret e => if e.source.node = source then ret ++ [e.target.node] else ret) []

/-! ## Propagation and traversal -/

/-- The member `Pin::flow (data)`; `mem` is the memory `node->` reads and `g` is
the graph `node->graph` of the pin. -/
def Pin.flow {V : Type} (mem : Nat → Node) (g : Graph) :
    Nat → Pin → V → List (Call V) → Except Fault (List (Call V))
  | 0, _, _, _ => Except.error Fault.outOfFuel
  | fuel + 1, p, data, log =>
    if p.pinType = PinType.In then
      Except.ok ((Memory.deref mem p.node).flow p data log)
    else
      (g.targets p).foldlM (fun acc t => Pin.flow mem g fuel t data acc) log

/-- The member `Node::publish (data)`. -/
def Node.publish {V : Type} (mem : Nat → Node) (g : Graph) (fuel : Nat) (n : Node) (data : V)
    (log : List (Call V)) : Except Fault (List (Call V)) :=
  n.outs.foldlM (fun acc p => Pin.flow mem g fuel p data acc) log

/-- The member `Graph::dfs (node, visit)`; `visited` logs the calls to `visit`. -/
def Graph.dfs (g : Graph) : Nat → Nat → List Nat → Except Fault (List Nat)
  | 0, _, _ => Except.error Fault.outOfFuel
  | fuel + 1, node, visited =>
    match (g.targetsNode node).foldlM (fun acc n => Graph.dfs g fuel n acc) visited with
    | Except.ok visited1 => Except.ok (visited1 ++ [node])
    | Except.error f => Except.error f

/-- The member `Graph::bfs (node, visit)`; `visited` logs the calls to `visit`. -/
def Graph.bfs (g : Graph) : Nat → Nat → List Nat → Except Fault (List Nat)
  | 0, _, _ => Except.error Fault.outOfFuel
  | fuel + 1, node, visited =>
    (g.targetsNode node).foldlM (fun acc n => Graph.bfs g fuel n acc) (visited ++ [node])

/-! ## Vocabulary of the properties -/

/-- The node-level edge relation: some edge has its source pin on `x` and its
target pin on `y`. -/
def Graph.step (g : Graph) (x y : Nat) : Prop :=
  ∃ e ∈ g.edges, e.source.node = x ∧ e.target.node = y

/-- The node-level edge relation has no cycle among the nodes reachable from `s`. -/
def Graph.acyclicFrom (g : Graph) (s : Nat) : Prop :=
  ∀ x, Relation.ReflTransGen g.step s x → ¬ Relation.TransGen g.step x x

/-- The `onData` calls that make up one delivery of `v` at input pin `t`: one
call `onData (node of t, t, v)` per listener registered on the node object `t`
points to, in registration order. -/
def Memory.delivery {V : Type} (mem : Nat → Node) (t : Pin) (v : V) : List (Call V) :=
  (mem t.node).listeners.map (fun l => Call.mk l t.node t v)

/-- A traversal `run` started at `x` returns (for every large enough recursion
budget) after passing exactly the sequence `q` to `visit`. -/
def Visits (run : Nat → Nat → List Nat → Except Fault (List Nat)) (x : Nat) (q : List Nat) :
    Prop :=
  ∃ fuel, ∀ fuel1, fuel ≤ fuel1 → ∀ visited, run fuel1 x visited = Except.ok (visited ++ q)

/-- The sequence of nodes `dfs (x, visit)` passes to `visit` is `q`. -/
def Graph.dfsVisits (g : Graph) (x : Nat) (q : List Nat) : Prop :=
  Visits g.dfs x q

/-- The sequence of nodes `bfs (x, visit)` passes to `visit` is `q`. -/
def Graph.bfsVisits (g : Graph) (x : Nat) (q : List Nat) : Prop :=
  Visits g.bfs x q

/-- The node addresses of the node collection are pairwise different (every
node object was returned by its own `new`). -/
def Graph.distinctNodes (g : Graph) : Prop :=
  (g.nodes.map Node.addr).Nodup

instance (g : Graph) : Decidable g.distinctNodes := by
  unfold Graph.distinctNodes
  infer_instance

/-- Pin `p` is owned by a node currently in the node collection: it sits in the
input or output array of a node of the collection, and that node is the one its
back reference names. -/
def Graph.ownsPin (g : Graph) (p : Pin) : Prop :=
  ∃ n ∈ g.nodes, n.addr = p.node ∧ p ∈ n.ins ++ n.outs

instance (g : Graph) (p : Pin) : Decidable (g.ownsPin p) := by
  unfold Graph.ownsPin
  infer_instance

/-- The edge-validity invariant: the source pin and the target pin of every edge
are owned by nodes currently in the node collection. -/
def Graph.edgesValid (g : Graph) : Prop :=
  ∀ e ∈ g.edges, g.ownsPin e.source ∧ g.ownsPin e.target

instance (g : Graph) : Decidable g.edgesValid := by
  unfold Graph.edgesValid
  infer_instance

/-- The graphs that can be built from the empty graph by `addNode`, `removeNode`,
`removeEdge`, and `addEdge` between pins of nodes currently in the graph. -/
inductive Graph.Reachable : Graph → Prop where
  | empty : Graph.Reachable Graph.empty
  | addNode (g : Graph) (self : Nat) (name : String) (numIns numOuts : Int) :
      Graph.Reachable g → Graph.Reachable (g.addNode self name numIns numOuts).1
  | removeNode (g : Graph) (node : Nat) :
      Graph.Reachable g → Graph.Reachable (g.removeNode node)
  | removeEdge (g : Graph) (edge : Edge) :
      Graph.Reachable g → Graph.Reachable (g.removeEdge edge)
  | addEdge (g : Graph) (self : Nat) (source target : Pin) :
      Graph.Reachable g → g.ownsPin source → g.ownsPin target →
      Graph.Reachable (g.addEdge self source target).1

/-- The edge collection with the position of every edge in it. -/
def Graph.indexedEdges (g : Graph) : List (Nat × Edge) :=
  g.edges.enum

/-- An edge path from node `s` to node `m`: a sequence of edges of the collection
(each with its position), the first leaving a pin of `s`, each next one leaving
the node the one before enters, the last entering `m`; the empty sequence is the
path from a node to itself. -/
def Graph.isPath (g : Graph) : Nat → Nat → List (Nat × Edge) → Bool
  | s, m, [] => s == m
  | s, m, ie :: rest =>
    g.indexedEdges.contains ie && (ie.2.source.node == s
      && Graph.isPath g ie.2.target.node m rest)

/-- There are exactly `k` distinct edge paths from `s` to `m`: some list without
repetition holds precisely the edge paths from `s` to `m` and has length `k`. -/
def Graph.pathCount (g : Graph) (s m k : Nat) : Prop :=
  ∃ ps : List (List (Nat × Edge)),
    ps.Nodup ∧ (∀ es, es ∈ ps ↔ g.isPath s m es = true) ∧ ps.length = k

/-- Both traversals from `a` return, and each passes `m` to `visit` as many times
as there are distinct edge paths from `a` to `m`. -/
def Graph.visitsMatchPaths (g : Graph) (m a : Nat) : Prop :=
  ∃ qd qb, g.dfsVisits a qd ∧ g.bfsVisits a qb
    ∧ qd.count m = qb.count m ∧ g.pathCount a m (qd.count m)

/-! ## Scenario graphs -/

/-- Scenario: node A at address 1 (no input, one output), node B at address 2
(one input, no output) with listener 7 registered, one edge A.out0 -> B.in0. -/
def publishScenario : Graph :=
  let g1 := (Graph.empty.addNode 1 "A" 0 1).1
  let g2 := (g1.addNode 2 "B" 1 0).1
  let g3 := g2.addListenerAt 2 7
  (g3.addEdge 10 (Pin.mk PinType.Out 0 1) (Pin.mk PinType.In 0 2)).1

/-- Scenario: the chain A -> B -> C over nodes at addresses 1, 2, 3, with the
edges A.out0 -> B.in0 and B.out0 -> C.in0. -/
def chainScenario : Graph :=
  let g1 := (Graph.empty.addNode 1 "A" 0 1).1
  let g2 := (g1.addNode 2 "B" 1 1).1
  let g3 := (g2.addNode 3 "C" 1 0).1
  let g4 := (g3.addEdge 10 (Pin.mk PinType.Out 0 1) (Pin.mk PinType.In 0 2)).1
  (g4.addEdge 11 (Pin.mk PinType.Out 0 2) (Pin.mk PinType.In 0 3)).1

/-- Scenario: output pin A.out0 connected first to B.in0 and then to C.in0, with
listener 7 on B and listener 8 on C. -/
def fanOutScenario : Graph :=
  let g1 := (Graph.empty.addNode 1 "A" 0 1).1
  let g2 := (g1.addNode 2 "B" 1 0).1
  let g3 := (g2.addNode 3 "C" 1 0).1
  let g4 := (g3.addListenerAt 2 7).addListenerAt 3 8
  let g5 := (g4.addEdge 10 (Pin.mk PinType.Out 0 1) (Pin.mk PinType.In 0 2)).1
  (g5.addEdge 11 (Pin.mk PinType.Out 0 1) (Pin.mk PinType.In 0 3)).1

/-- Scenario: the chain A -> B -> C with listener 6 registered on A, listener 7
on B and listener 8 on C. -/
def listenedChainScenario : Graph :=
  ((chainScenario.addListenerAt 1 6).addListenerAt 2 7).addListenerAt 3 8

/-- Scenario: the diamond A -> B, A -> C, B -> D, C -> D over nodes at
addresses 1, 2, 3, 4. -/
def diamondScenario : Graph :=
  let g1 := (Graph.empty.addNode 1 "A" 0 2).1
  let g2 := (g1.addNode 2 "B" 1 1).1
  let g3 := (g2.addNode 3 "C" 1 1).1
  let g4 := (g3.addNode 4 "D" 2 0).1
  let g5 := (g4.addEdge 10 (Pin.mk PinType.Out 0 1) (Pin.mk PinType.In 0 2)).1
  let g6 := (g5.addEdge 11 (Pin.mk PinType.Out 1 1) (Pin.mk PinType.In 0 3)).1
  let g7 := (g6.addEdge 12 (Pin.mk PinType.Out 0 2) (Pin.mk PinType.In 0 4)).1
  (g7.addEdge 13 (Pin.mk PinType.Out 0 3) (Pin.mk PinType.In 1 4)).1

/-- Scenario: two parallel edges A.out0 -> B.in0 between nodes at addresses 1, 2. -/
def parallelScenario : Graph :=
  let g1 := (Graph.empty.addNode 1 "A" 0 1).1
  let g2 := (g1.addNode 2 "B" 1 0).1
  let g3 := (g2.addEdge 10 (Pin.mk PinType.Out 0 1) (Pin.mk PinType.In 0 2)).1
  (g3.addEdge 11 (Pin.mk PinType.Out 0 1) (Pin.mk PinType.In 0 2)).1

/-- Scenario: node A at address 1 with two outputs, nodes X and Y at addresses
2 and 3 with one input each; the edge A.out1 -> X.in0 is added first, the edge
A.out0 -> Y.in0 second. -/
def crossedScenario : Graph :=
  let g1 := (Graph.empty.addNode 1 "A" 0 2).1
  let g2 := (g1.addNode 2 "X" 1 0).1
  let g3 := (g2.addNode 3 "Y" 1 0).1
  let g4 := (g3.addEdge 10 (Pin.mk PinType.Out 1 1) (Pin.mk PinType.In 0 2)).1
  (g4.addEdge 11 (Pin.mk PinType.Out 0 1) (Pin.mk PinType.In 0 3)).1

/-- Scenario: node A at address 1 (no input, one output) in the node collection,
and an edge from A.out0 to the input pin of a node at address 5 that is not in
the node collection of this graph. -/
def foreignTargetScenario : Graph :=
  let g1 := (Graph.empty.addNode 1 "A" 0 1).1
  (g1.addEdge 10 (Pin.mk PinType.Out 0 1) (Pin.mk PinType.In 0 5)).1

/-- A memory holding, besides the nodes of `g`, a node Z at address 5 (one input,
no output) with listener 9 registered. -/
def foreignMemory (g : Graph) : Nat → Node :=
  g.memory (fun a => if a = 5 then (Node.new 5 "Z" 1 0).addListener 9 else Memory.blank a)

/-! ## Auxiliary facts about the loops -/

theorem foldl_push_eq {α β : Type} (p : α → Prop) [DecidablePred p] (f : α → β) (xs : List α)
    (init : List β) :
    xs.foldl (fun acc e => if p e then acc ++ [f e] else acc) init
      = init ++ (xs.filter (fun e => decide (p e))).map f := by
  induction xs generalizing init with
  | nil => simp
  | cons x xs ih =>
    by_cases hx : p x
    · simp [List.foldl_cons, hx, ih, List.filter_cons]
    · simp [List.foldl_cons, hx, ih, List.filter_cons]

theorem foldl_erase_cons_of_not_mem {α : Type} [DecidableEq α] (x : α) (ys : List α) :
    ∀ xs : List α, x ∉ ys → ys.foldl (fun acc e => acc.erase e) (x :: xs)
      = x :: ys.foldl (fun acc e => acc.erase e) xs := by
  induction ys with
  | nil => intro xs _; rfl
  | cons y ys ih =>
    intro xs hx
    have hxy : x ≠ y := fun h => hx (by simp [h])
    have hys : x ∉ ys := fun h => hx (by simp [h])
    simp only [List.foldl_cons]
    rw [List.erase_cons_tail (by simpa using hxy)]
    exact ih _ hys

theorem foldl_erase_filter {α : Type} [DecidableEq α] (p : α → Bool) (xs : List α) :
    (xs.filter p).foldl (fun acc e => acc.erase e) xs = xs.filter (fun e => !p e) := by
  induction xs with
  | nil => rfl
  | cons x xs ih =>
    by_cases hx : p x = true
    · simp only [List.filter_cons, hx, List.foldl_cons, List.erase_cons_head, if_true]
      simpa using ih
    · have hnot : x ∉ xs.filter p := fun h => hx (List.mem_filter.mp h).2
      have hx2 : p x = false := by simpa using hx
      simp only [List.filter_cons, hx2]
      rw [if_neg (by simp), foldl_erase_cons_of_not_mem x _ xs hnot, ih]
      simp

theorem removeEdge_edges (g : Graph) (edge : Edge) :
    (g.removeEdge edge).edges = g.edges.erase edge := by
  simp [Graph.removeEdge, OwnedArray.removeObject, List.erase_eq_eraseP']

theorem removeEdge_nodes (g : Graph) (edge : Edge) : (g.removeEdge edge).nodes = g.nodes := rfl

theorem foldl_removeEdge (es : List Edge) (g : Graph) :
    es.foldl (fun acc e => acc.removeEdge e) g
      = { nodes := g.nodes, edges := es.foldl (fun acc e => acc.erase e) g.edges } := by
  induction es generalizing g with
  | nil => rfl
  | cons e es ih => simp [List.foldl_cons, ih, removeEdge_edges, removeEdge_nodes]

theorem removeNode_eq (g : Graph) (node : Nat) :
    g.removeNode node =
      { nodes := g.nodes.eraseP (fun n => n.addr == node)
        edges := g.edges.filter (fun e => !decide (e.source.node = node ∨ e.target.node = node)) } := by
  unfold Graph.removeNode
  simp only [OwnedArray.removeObject]
  have h : g.edges.foldl
      (fun acc e => if e.source.node = node ∨ e.target.node = node then acc ++ [e] else acc) []
      = g.edges.filter (fun e => decide (e.source.node = node ∨ e.target.node = node)) := by
    simpa using foldl_push_eq (fun e : Edge => e.source.node = node ∨ e.target.node = node)
      (fun e => e) g.edges []
  rw [h, foldl_removeEdge, foldl_erase_filter]

theorem targets_filter_map (g : Graph) (p : Pin) :
    g.targets p = (g.edges.filter (fun e => decide (e.source = p))).map Edge.target := by
  unfold Graph.targets
  rw [foldl_push_eq (fun e : Edge => e.source = p) Edge.target]
  simp

/-- C1. `targets (pin)` is the list obtained by walking the edge collection in
insertion order, keeping the edges whose source is the pin and taking their
targets; a pin occurs in it as many times as there are edges from `pin` to it. -/
theorem targets_eq_filter_map (g : Graph) (p : Pin) :
    g.targets p = (g.edges.filter (fun e => decide (e.source = p))).map Edge.target
      ∧ ∀ t, (g.targets p).count t
          = (g.edges.filter (fun e => decide (e.source = p ∧ e.target = t))).length := by
  refine ⟨targets_filter_map g p, fun t => ?_⟩
  rw [targets_filter_map, List.count_eq_countP, List.countP_map, List.countP_filter,
    List.countP_eq_length_filter]
  congr 1
  apply List.filter_congr
  intro e _
  by_cases h1 : e.target = t <;> by_cases h2 : e.source = p <;> simp [h1, h2]

theorem eraseP_addr_not_mem (node : Nat) (ns : List Node) (hd : (ns.map Node.addr).Nodup) :
    node ∉ (ns.eraseP (fun n => n.addr == node)).map Node.addr := by
  induction ns with
  | nil => simp
  | cons n ns ih =>
    rw [List.map_cons, List.nodup_cons] at hd
    by_cases hn : n.addr = node
    · have hb : (n.addr == node) = true := by simpa using hn
      simp only [List.eraseP_cons, hb, cond_true]
      rw [← hn]; exact hd.1
    · have hb : ¬ (n.addr == node) = true := by simpa using hn
      have hb2 : (n.addr == node) = false := by simpa using hn
      simp only [List.eraseP_cons, hb2, cond_false]
      rw [List.map_cons, List.mem_cons]
      rintro (h | h)
      · exact hn h.symm
      · exact ih hd.2 h

theorem makePins_eq (pinType : PinType) (self : Nat) (num : Int) :
    Node.makePins pinType self num
      = (List.range num.toNat).map (fun i => Pin.mk pinType (Int.ofNat i) self) := by
  unfold Node.makePins OwnedArray.add
  generalize num.toNat = k
  induction k with
  | zero => rfl
  | succ k ih => rw [List.range_succ, List.foldl_append, ih]; simp

/-- C2. After `removeNode (n)` no edge of the collection has its source pin or
its target pin on `n`, and `n` is no longer in the node collection (node
addresses being pairwise different). -/
theorem removeNode_leaves_no_edge_of_node (g : Graph) (n : Nat) :
    (∀ e ∈ (g.removeNode n).edges, e.source.node ≠ n ∧ e.target.node ≠ n)
      ∧ (g.distinctNodes → n ∉ (g.removeNode n).nodes.map Node.addr) := by
  rw [removeNode_eq]
  refine ⟨?_, fun hd => eraseP_addr_not_mem n g.nodes hd⟩
  intro e he
  have h := (List.mem_filter.mp he).2
  simp only [Bool.not_eq_true', decide_eq_false_iff_not, not_or] at h
  exact h

theorem removeNode_leaves_no_edge_of_node_witness :
    chainScenario.distinctNodes
      ∧ ((∀ e ∈ (chainScenario.removeNode 2).edges, e.source.node ≠ 2 ∧ e.target.node ≠ 2)
        ∧ 2 ∉ (chainScenario.removeNode 2).nodes.map Node.addr)
      ∧ (chainScenario.removeNode 2).edges = []
      ∧ (chainScenario.removeNode 2).nodes.map Node.addr = [1, 3] :=
  ⟨by decide, ⟨(removeNode_leaves_no_edge_of_node chainScenario 2).1,
    (removeNode_leaves_no_edge_of_node chainScenario 2).2 (by decide)⟩, by decide, by decide⟩

/-- C3. Adding an edge and removing it at once restores the graph, hence the
value of `targets` for every pin, also when other edges between the same two
pins exist (the address of the new edge object being that of no edge in the
collection). -/
theorem addEdge_removeEdge_round_trip (g : Graph) (self : Nat) (s t : Pin)
    (hfresh : ∀ e ∈ g.edges, e.addr ≠ self) :
    ∃ e, (g.addEdge self s t).2 = some e
      ∧ ((g.addEdge self s t).1.removeEdge e).edges = g.edges
      ∧ (g.addEdge self s t).1.removeEdge e = g
      ∧ ∀ p, ((g.addEdge self s t).1.removeEdge e).targets p = g.targets p := by
  have hnot : Edge.mk self s t ∉ g.edges := fun h => hfresh _ h rfl
  have hedges : ((g.addEdge self s t).1.removeEdge (Edge.mk self s t)).edges = g.edges := by
    rw [removeEdge_edges]
    simp only [Graph.addEdge, OwnedArray.add]
    rw [List.erase_append_right _ hnot]
    simp
  have hg : (g.addEdge self s t).1.removeEdge (Edge.mk self s t) = g := by
    cases g with
    | mk nodes edges =>
      have h2 : ((Graph.mk nodes edges).addEdge self s t).1.removeEdge (Edge.mk self s t)
          = Graph.mk nodes ((((Graph.mk nodes edges).addEdge self s t).1.removeEdge
              (Edge.mk self s t)).edges) := rfl
      rw [h2, hedges]
  refine ⟨Edge.mk self s t, ?_, hedges, hg, ?_⟩
  · simp [Graph.addEdge, OwnedArray.add, OwnedArray.getLast]
  · intro p; rw [hg]

theorem addEdge_removeEdge_round_trip_witness :
    (∀ e ∈ chainScenario.edges, e.addr ≠ 12)
      ∧ ∃ e, (chainScenario.addEdge 12 (Pin.mk PinType.Out 0 1) (Pin.mk PinType.In 0 2)).2 = some e
        ∧ ((chainScenario.addEdge 12 (Pin.mk PinType.Out 0 1) (Pin.mk PinType.In 0 2)).1.removeEdge e).edges
            = chainScenario.edges
        ∧ (chainScenario.addEdge 12 (Pin.mk PinType.Out 0 1) (Pin.mk PinType.In 0 2)).1.removeEdge e
            = chainScenario
        ∧ ∀ p, ((chainScenario.addEdge 12 (Pin.mk PinType.Out 0 1)
              (Pin.mk PinType.In 0 2)).1.removeEdge e).targets p = chainScenario.targets p :=
  ⟨by decide, addEdge_removeEdge_round_trip chainScenario 12 _ _ (by decide)⟩

/-- C4. The node returned by `addNode (name, numIns, numOuts)` with non-negative
counts has `numIns` input pins and `numOuts` output pins; the pin at position
`i` of the inputs is `(In, i, node)`, the pin at position `i` of the outputs is
`(Out, i, node)`; the node is the last element of the node collection, which is
the old collection followed by it. -/
theorem addNode_pin_layout (g : Graph) (self : Nat) (name : String) (numIns numOuts : Int)
    (hIns : 0 ≤ numIns) (hOuts : 0 ≤ numOuts) :
    ∃ n, (g.addNode self name numIns numOuts).2 = some n
      ∧ (g.addNode self name numIns numOuts).1.nodes = g.nodes ++ [n]
      ∧ (g.addNode self name numIns numOuts).1.nodes.getLast? = some n
      ∧ (g.addNode self name numIns numOuts).1.edges = g.edges
      ∧ n.addr = self ∧ n.name = name
      ∧ (n.ins.length : Int) = numIns ∧ (n.outs.length : Int) = numOuts
      ∧ (∀ i : Nat, (i : Int) < numIns → n.ins[i]? = some (Pin.mk PinType.In (i : Int) self))
      ∧ (∀ i : Nat, (i : Int) < numOuts → n.outs[i]? = some (Pin.mk PinType.Out (i : Int) self))
      ∧ (∀ p ∈ n.ins ++ n.outs, p.node = n.addr) := by
  refine ⟨Node.new self name numIns numOuts, ?_, rfl, ?_, rfl, rfl, rfl, ?_, ?_, ?_, ?_, ?_⟩
  · simp [Graph.addNode, OwnedArray.add, OwnedArray.getLast]
  · simp [Graph.addNode, OwnedArray.add]
  · simp [Node.new, makePins_eq, Int.toNat_of_nonneg hIns]
  · simp [Node.new, makePins_eq, Int.toNat_of_nonneg hOuts]
  · intro i hi
    have : i < numIns.toNat := by omega
    simp [Node.new, makePins_eq, List.getElem?_map, List.getElem?_range this]
  · intro i hi
    have : i < numOuts.toNat := by omega
    simp [Node.new, makePins_eq, List.getElem?_map, List.getElem?_range this]
  · intro p hp
    simp only [Node.new, makePins_eq, List.mem_append, List.mem_map] at hp
    rcases hp with ⟨i, _, rfl⟩ | ⟨i, _, rfl⟩ <;> rfl

theorem addNode_pin_layout_witness :
    (0 : Int) ≤ 2 ∧ (0 : Int) ≤ 1
      ∧ ∃ n, (chainScenario.addNode 4 "D" 2 1).2 = some n
      ∧ (chainScenario.addNode 4 "D" 2 1).1.nodes = chainScenario.nodes ++ [n]
      ∧ (chainScenario.addNode 4 "D" 2 1).1.nodes.getLast? = some n
      ∧ (chainScenario.addNode 4 "D" 2 1).1.edges = chainScenario.edges
      ∧ n.addr = 4 ∧ n.name = "D"
      ∧ (n.ins.length : Int) = 2 ∧ (n.outs.length : Int) = 1
      ∧ (∀ i : Nat, (i : Int) < 2 → n.ins[i]? = some (Pin.mk PinType.In (i : Int) 4))
      ∧ (∀ i : Nat, (i : Int) < 1 → n.outs[i]? = some (Pin.mk PinType.Out (i : Int) 4))
      ∧ (∀ p ∈ n.ins ++ n.outs, p.node = n.addr) :=
  ⟨by decide, by decide, addNode_pin_layout chainScenario 4 "D" 2 1 (by decide) (by decide)⟩

/-- C9. `removeEdge (e)` for an edge that is not in the edge collection leaves
the edge collection (contents and order) and the node collection unchanged. -/
theorem removeEdge_absent_unchanged (g : Graph) (e : Edge) (habsent : e ∉ g.edges) :
    (g.removeEdge e).edges = g.edges ∧ (g.removeEdge e).nodes = g.nodes := by
  refine ⟨?_, rfl⟩
  rw [removeEdge_edges]
  exact List.erase_of_not_mem habsent

theorem removeEdge_absent_unchanged_witness :
    Edge.mk 12 (Pin.mk PinType.Out 0 1) (Pin.mk PinType.In 0 2) ∉ chainScenario.edges
      ∧ (chainScenario.removeEdge (Edge.mk 12 (Pin.mk PinType.Out 0 1) (Pin.mk PinType.In 0 2))).edges
          = chainScenario.edges
      ∧ (chainScenario.removeEdge (Edge.mk 12 (Pin.mk PinType.Out 0 1) (Pin.mk PinType.In 0 2))).nodes
          = chainScenario.nodes :=
  ⟨by decide, removeEdge_absent_unchanged chainScenario _ (by decide)⟩

/-- C10, as stated, fails: on the chain graph, removing an edge object that is
not in the collection does not report `NotFound`; the call returns normally. -/
theorem removeEdge_absent_reports_nothing :
    ¬ (∀ (g : Graph) (e : Edge), e ∉ g.edges →
        g.removeEdgeCall e = Except.error GraphError.NotFound) := by
  intro h
  have h1 := h chainScenario (Edge.mk 99 (Pin.mk PinType.Out 0 1) (Pin.mk PinType.In 0 2))
    (by decide)
  simp [Graph.removeEdgeCall] at h1

/-- C10, amended. `removeEdge (e)` for an edge that is not in the edge collection
returns normally, reporting no error, with the graph it was called on. -/
theorem removeEdge_absent_returns_normally (g : Graph) (e : Edge) (habsent : e ∉ g.edges) :
    g.removeEdgeCall e = Except.ok g := by
  unfold Graph.removeEdgeCall
  congr 1
  cases g with
  | mk nodes edges =>
    simp only [Graph.removeEdge, OwnedArray.removeObject, ← List.erase_eq_eraseP']
    rw [List.erase_of_not_mem habsent]

theorem removeEdge_absent_returns_normally_witness :
    Edge.mk 99 (Pin.mk PinType.Out 0 1) (Pin.mk PinType.In 0 2) ∉ chainScenario.edges
      ∧ chainScenario.removeEdgeCall (Edge.mk 99 (Pin.mk PinType.Out 0 1) (Pin.mk PinType.In 0 2))
          = Except.ok chainScenario :=
  ⟨by decide, removeEdge_absent_returns_normally chainScenario _ (by decide)⟩

theorem listenerList_call_eq {V : Type} (listeners : List Nat) (sourceNode : Nat)
    (sourcePin : Pin) (data : V) (log : List (Call V)) :
    ListenerList.call listeners sourceNode sourcePin data log
      = log ++ listeners.map (fun l => Call.mk l sourceNode sourcePin data) := by
  unfold ListenerList.call
  induction listeners generalizing log with
  | nil => simp
  | cons l ls ih => simp [List.foldl_cons, ih]

theorem foldlM_append_ok {α β : Type} (f : List β → α → Except Fault (List β))
    (h : α → List β) (ts : List α) (hf : ∀ t ∈ ts, ∀ acc, f acc t = Except.ok (acc ++ h t))
    (log : List β) :
    ts.foldlM f log = Except.ok (log ++ ts.flatMap h) := by
  induction ts generalizing log with
  | nil => simp [pure, Except.pure]
  | cons t ts ih =>
    rw [List.foldlM_cons, hf t (by simp)]
    have := ih (fun t' ht' => hf t' (by simp [ht'])) (log ++ h t)
    simpa [bind, Except.bind] using this

theorem findNode_addr (g : Graph) (addr : Nat) (n : Node) (h : g.findNode addr = some n) :
    n.addr = addr := by
  have := List.find?_some h
  simpa using this

theorem findNode_isSome (g : Graph) (addr : Nat) (h : ∃ n ∈ g.nodes, n.addr = addr) :
    ∃ n, g.findNode addr = some n := by
  obtain ⟨n, hn, ha⟩ := h
  cases hf : g.findNode addr with
  | some m => exact ⟨m, rfl⟩
  | none =>
    have := List.find?_eq_none.mp hf n hn
    simp [ha] at this

theorem deref_memory (g : Graph) (outside : Nat → Node) (a : Nat) (n : Node)
    (h : g.findNode a = some n) : Memory.deref (g.memory outside) a = n := by
  have ha := findNode_addr g a n h
  cases n with
  | mk addr name ins outs listeners =>
    simp only [Memory.deref, Graph.memory, h]
    simp only at ha
    rw [ha]

theorem flow_in_pin {V : Type} (mem : Nat → Node) (g : Graph) (t : Pin) (v : V)
    (hIn : t.pinType = PinType.In) (fuel : Nat) (log : List (Call V)) :
    Pin.flow mem g (fuel + 1) t v log = Except.ok (log ++ Memory.delivery mem t v) := by
  simp [Pin.flow, hIn, Node.flow, listenerList_call_eq, Memory.delivery, Memory.deref]

theorem flow_out_pin {V : Type} (mem : Nat → Node) (g : Graph) (p : Pin) (v : V)
    (hOut : p.pinType = PinType.Out)
    (hIn : ∀ t ∈ g.targets p, t.pinType = PinType.In)
    (fuel : Nat) (log : List (Call V)) :
    Pin.flow mem g (fuel + 2) p v log
      = Except.ok (log ++ (g.targets p).flatMap (fun t => Memory.delivery mem t v)) := by
  have hne : ¬ p.pinType = PinType.In := by rw [hOut]; decide
  rw [Pin.flow, if_neg hne]
  exact foldlM_append_ok _ _ _
    (fun t ht acc => flow_in_pin mem g t v (hIn t ht) fuel acc) log

theorem new_outs_are_out (self : Nat) (name : String) (numIns numOuts : Int) :
    ∀ p ∈ (Node.new self name numIns numOuts).outs, p.pinType = PinType.Out := by
  intro p hp
  simp only [Node.new, makePins_eq, List.mem_map] at hp
  obtain ⟨i, _, rfl⟩ := hp
  rfl

/-- C6. For an output pin `p` whose targets `[t1, ..., tk]` are input pins,
`p.flow (v)` returns, given fuel for the two levels of calls, having produced the
delivery at `t1`, then the delivery at `t2`, ..., then the delivery at `tk` (one
per edge sourced at `p`, in edge-insertion order, each to the listeners of the
node the target pin points to) and nothing else; in the fan-out scenario both
nodes receive the value once, the first-added edge first. -/
theorem flow_fan_out {V : Type} (mem : Nat → Node) (g : Graph) (p : Pin) (v : V)
    (hOut : p.pinType = PinType.Out)
    (hIn : ∀ t ∈ g.targets p, t.pinType = PinType.In)
    (fuel : Nat) (log : List (Call V)) :
    (Pin.flow mem g (fuel + 2) p v log
        = Except.ok (log ++ ((g.edges.filter (fun e => decide (e.source = p))).map Edge.target).flatMap
            (fun t => (mem t.node).listeners.map (fun l => Call.mk l t.node t v))))
      ∧ Pin.flow (fanOutScenario.memory Memory.blank) fanOutScenario 2 (Pin.mk PinType.Out 0 1) "v" []
          = Except.ok [Call.mk 7 2 (Pin.mk PinType.In 0 2) "v", Call.mk 8 3 (Pin.mk PinType.In 0 3) "v"] := by
  refine ⟨?_, rfl⟩
  rw [flow_out_pin mem g p v hOut hIn fuel log, targets_filter_map]
  rfl

theorem flow_fan_out_witness :
    (Pin.mk PinType.Out 0 1).pinType = PinType.Out
      ∧ (∀ t ∈ fanOutScenario.targets (Pin.mk PinType.Out 0 1), t.pinType = PinType.In)
      ∧ fanOutScenario.targets (Pin.mk PinType.Out 0 1)
          = [Pin.mk PinType.In 0 2, Pin.mk PinType.In 0 3]
      ∧ Pin.flow (fanOutScenario.memory Memory.blank) fanOutScenario 2
            (Pin.mk PinType.Out 0 1) (5 : Nat) []
          = Except.ok ([] ++ ((fanOutScenario.edges.filter
              (fun e => decide (e.source = Pin.mk PinType.Out 0 1))).map Edge.target).flatMap
              (fun t => ((fanOutScenario.memory Memory.blank) t.node).listeners.map
                (fun l => Call.mk l t.node t 5)))
      ∧ foreignTargetScenario.findNode 5 = none
      ∧ Pin.flow (foreignMemory foreignTargetScenario) foreignTargetScenario 2
            (Pin.mk PinType.Out 0 1) (5 : Nat) []
          = Except.ok [Call.mk 9 5 (Pin.mk PinType.In 0 5) 5] :=
  ⟨rfl, by decide, by decide,
    (flow_fan_out (fanOutScenario.memory Memory.blank) fanOutScenario (Pin.mk PinType.Out 0 1)
      (5 : Nat) rfl (by decide) 0 []).1,
    by decide,
    (flow_fan_out (foreignMemory foreignTargetScenario) foreignTargetScenario
      (Pin.mk PinType.Out 0 1) (5 : Nat) rfl (by decide) 0 []).1⟩

/-- C5. When every pin in the outputs of `N` is an output pin and every edge
leaving one of them targets an input pin, `N.publish (v)` returns, given fuel for
the two levels of `flow` calls, having produced exactly: for each output pin of
`N` in pin order, for each edge sourced at that pin in edge-insertion order, for
each listener registered on the node the edge's target pin points to, one call
`onData (target node, target pin, v)`. In the scenario A -> B with one listener
on B, `A.publish ("hello")` makes the single call `onData (B, B.in0, "hello")` on
that listener. -/
theorem publish_calls {V : Type} (mem : Nat → Node) (g : Graph) (N : Node) (v : V)
    (hOuts : ∀ p ∈ N.outs, p.pinType = PinType.Out)
    (hIn : ∀ e ∈ g.edges, e.source ∈ N.outs → e.target.pinType = PinType.In)
    (fuel : Nat) (log : List (Call V)) :
    (N.publish mem g (fuel + 2) v log
        = Except.ok (log ++ N.outs.flatMap (fun p =>
            (g.edges.filter (fun e => decide (e.source = p))).flatMap (fun e =>
              (mem e.target.node).listeners.map
                (fun l => Call.mk l e.target.node e.target v)))))
      ∧ (publishScenario.findNode 1).map
            (fun A => A.publish (publishScenario.memory Memory.blank) publishScenario 2 "hello" [])
          = some (Except.ok [Call.mk 7 2 (Pin.mk PinType.In 0 2) "hello"]) := by
  refine ⟨?_, rfl⟩
  unfold Node.publish
  refine foldlM_append_ok _ _ _ (fun p hp acc => ?_) log
  have hmem : ∀ t ∈ g.targets p, ∃ e ∈ g.edges, e.source = p ∧ e.target = t := by
    intro t ht
    rw [targets_filter_map, List.mem_map] at ht
    obtain ⟨e, he, rfl⟩ := ht
    rw [List.mem_filter] at he
    exact ⟨e, he.1, by simpa using he.2, rfl⟩
  rw [flow_out_pin mem g p v (hOuts p hp)
    (fun t ht => by obtain ⟨e, he, hs, rfl⟩ := hmem t ht; exact hIn e he (hs ▸ hp))
    fuel acc, targets_filter_map, List.flatMap_map]
  rfl

theorem publish_calls_witness :
    (∀ p ∈ (Node.new 1 "A" 0 1).outs, p.pinType = PinType.Out)
      ∧ (∀ e ∈ publishScenario.edges, e.source ∈ (Node.new 1 "A" 0 1).outs →
          e.target.pinType = PinType.In)
      ∧ publishScenario.findNode 1 = some (Node.new 1 "A" 0 1)
      ∧ (Node.new 1 "A" 0 1).publish (publishScenario.memory Memory.blank) publishScenario 2
            (5 : Nat) []
          = Except.ok ([] ++ (Node.new 1 "A" 0 1).outs.flatMap (fun p =>
              (publishScenario.edges.filter (fun e => decide (e.source = p))).flatMap (fun e =>
                ((publishScenario.memory Memory.blank) e.target.node).listeners.map
                  (fun l => Call.mk l e.target.node e.target 5))))
      ∧ foreignTargetScenario.findNode 5 = none
      ∧ (Node.new 1 "A" 0 1).publish (foreignMemory foreignTargetScenario) foreignTargetScenario
            2 (5 : Nat) []
          = Except.ok [Call.mk 9 5 (Pin.mk PinType.In 0 5) 5] :=
  ⟨by decide, by decide, by decide,
    (publish_calls (publishScenario.memory Memory.blank) publishScenario (Node.new 1 "A" 0 1)
      (5 : Nat) (by decide) (by decide) 0 []).1,
    by decide,
    (publish_calls (foreignMemory foreignTargetScenario) foreignTargetScenario
      (Node.new 1 "A" 0 1) (5 : Nat) (by decide) (by decide) 0 []).1⟩

/-! ## Traversals -/

theorem targetsNode_eq_filter_map (g : Graph) (x : Nat) :
    g.targetsNode x
      = (g.edges.filter (fun e => decide (e.source.node = x))).map (fun e => e.target.node) := by
  unfold Graph.targetsNode
  rw [foldl_push_eq (fun e : Edge => e.source.node = x) (fun e => e.target.node)]
  simp

theorem step_of_mem_targetsNode (g : Graph) (x t : Nat) (h : t ∈ g.targetsNode x) :
    g.step x t := by
  rw [targetsNode_eq_filter_map, List.mem_map] at h
  obtain ⟨e, he, rfl⟩ := h
  rw [List.mem_filter] at he
  exact ⟨e, he.1, by simpa using he.2, rfl⟩

theorem reachable_finite (g : Graph) (s : Nat) :
    Set.Finite {x | Relation.ReflTransGen g.step s x} := by
  refine Set.Finite.subset
    (Set.Finite.insert s (g.edges.map (fun e => e.target.node)).toFinset.finite_toSet) ?_
  intro x hx
  rcases Relation.ReflTransGen.cases_tail hx with h | ⟨y, _, e, he, _, ht⟩
  · exact Set.mem_insert_iff.mpr (Or.inl h)
  · refine Set.mem_insert_iff.mpr (Or.inr ?_)
    simp only [Finset.mem_coe, List.mem_toFinset, List.mem_map]
    exact ⟨e, he, ht⟩

theorem acyclicFrom_wellFounded (g : Graph) (s : Nat) (h : g.acyclicFrom s) :
    WellFounded (fun a b : {x // Relation.ReflTransGen g.step s x} =>
      Relation.TransGen g.step b.1 a.1) := by
  haveI : Finite {x // Relation.ReflTransGen g.step s x} := (reachable_finite g s).to_subtype
  haveI : IsTrans {x // Relation.ReflTransGen g.step s x}
      (fun a b => Relation.TransGen g.step b.1 a.1) :=
    ⟨fun _ _ _ hab hbc => Relation.TransGen.trans hbc hab⟩
  haveI : IsIrrefl {x // Relation.ReflTransGen g.step s x}
      (fun a b => Relation.TransGen g.step b.1 a.1) :=
    ⟨fun a haa => h a.1 a.2 haa⟩
  exact Finite.wellFounded_of_trans_of_irrefl _

theorem acyclicFrom_of_rank (g : Graph) (rank : Nat → Nat)
    (hrank : ∀ e ∈ g.edges, rank e.target.node < rank e.source.node) (s : Nat) :
    g.acyclicFrom s := by
  have hlt : ∀ x y, Relation.TransGen g.step x y → rank y < rank x := by
    intro x y hxy
    induction hxy with
    | single hs =>
      obtain ⟨e, he, rfl, rfl⟩ := hs
      exact hrank e he
    | tail _ hs ih =>
      obtain ⟨e, he, rfl, rfl⟩ := hs
      exact lt_trans (hrank e he) ih
  intro x _ hxx
  exact lt_irrefl _ (hlt x x hxx)

theorem foldlM_forall₂_ok (f : List Nat → Nat → Except Fault (List Nat)) (ts : List Nat)
    (qs : List (List Nat))
    (h : List.Forall₂ (fun t q => ∀ acc, f acc t = Except.ok (acc ++ q)) ts qs)
    (visited : List Nat) :
    ts.foldlM f visited = Except.ok (visited ++ qs.flatten) := by
  induction h generalizing visited with
  | nil => simp [pure, Except.pure]
  | @cons t q ts qs hhead _ ih =>
    rw [List.foldlM_cons, hhead]
    have hrest := ih (visited ++ q)
    simpa [bind, Except.bind] using hrest

theorem visits_common_fuel (run : Nat → Nat → List Nat → Except Fault (List Nat))
    (ts : List Nat) (hts : ∀ t ∈ ts, ∃ q, Visits run t q) :
    ∃ qs, List.Forall₂ (Visits run) ts qs ∧ ∃ fuel, ∀ fuel1, fuel ≤ fuel1 →
      List.Forall₂ (fun t q => ∀ acc, run fuel1 t acc = Except.ok (acc ++ q)) ts qs := by
  induction ts with
  | nil => exact ⟨[], List.Forall₂.nil, 0, fun _ _ => List.Forall₂.nil⟩
  | cons t ts ih =>
    obtain ⟨q, hq⟩ := hts t (by simp)
    obtain ⟨qs, hqs, fuel, hfuel⟩ := ih (fun t' ht' => hts t' (by simp [ht']))
    obtain ⟨fuelT, hT⟩ := hq
    refine ⟨q :: qs, List.Forall₂.cons ⟨fuelT, hT⟩ hqs, max fuelT fuel, fun fuel1 h1 => ?_⟩
    exact List.Forall₂.cons (hT fuel1 (le_trans (le_max_left _ _) h1))
      (hfuel fuel1 (le_trans (le_max_right _ _) h1))

theorem traversal_visits (g : Graph) (run : Nat → Nat → List Nat → Except Fault (List Nat))
    (combine : Nat → List Nat → List Nat)
    (hrun : ∀ fuel x qs,
      List.Forall₂ (fun t q => ∀ acc, run fuel t acc = Except.ok (acc ++ q)) (g.targetsNode x) qs →
      ∀ visited, run (fuel + 1) x visited = Except.ok (visited ++ combine x qs.flatten))
    (s : Nat) (h : g.acyclicFrom s) :
    ∀ x, Relation.ReflTransGen g.step s x →
      ∃ qs, List.Forall₂ (Visits run) (g.targetsNode x) qs ∧ Visits run x (combine x qs.flatten) := by
  intro x hx
  have key : ∀ a : {x // Relation.ReflTransGen g.step s x},
      ∃ qs, List.Forall₂ (Visits run) (g.targetsNode a.1) qs
        ∧ Visits run a.1 (combine a.1 qs.flatten) := by
    intro a
    induction a using (acyclicFrom_wellFounded g s h).induction with
    | _ a ih =>
      have hts : ∀ t ∈ g.targetsNode a.1, ∃ q, Visits run t q := by
        intro t ht
        have hstep := step_of_mem_targetsNode g a.1 t ht
        obtain ⟨qs, _, hv⟩ := ih ⟨t, Relation.ReflTransGen.tail a.2 hstep⟩
          (Relation.TransGen.single hstep)
        exact ⟨_, hv⟩
      obtain ⟨qs, hqs, fuel, hfuel⟩ := visits_common_fuel run _ hts
      refine ⟨qs, hqs, fuel + 1, fun fuel1 h1 visited => ?_⟩
      obtain ⟨k, rfl⟩ : ∃ k, fuel1 = k + 1 := ⟨fuel1 - 1, by omega⟩
      exact hrun k a.1 qs (hfuel k (by omega)) visited
  exact key ⟨x, hx⟩

theorem visits_unique (run : Nat → Nat → List Nat → Except Fault (List Nat)) (x : Nat)
    (q1 q2 : List Nat) (h1 : Visits run x q1) (h2 : Visits run x q2) : q1 = q2 := by
  obtain ⟨f1, hf1⟩ := h1
  obtain ⟨f2, hf2⟩ := h2
  have e1 := hf1 (max f1 f2) (le_max_left _ _) []
  have e2 := hf2 (max f1 f2) (le_max_right _ _) []
  rw [e1] at e2
  simpa using e2

theorem dfs_succ (g : Graph) (fuel x : Nat) (qs : List (List Nat))
    (h : List.Forall₂ (fun t q => ∀ acc, g.dfs fuel t acc = Except.ok (acc ++ q))
      (g.targetsNode x) qs) (visited : List Nat) :
    g.dfs (fuel + 1) x visited = Except.ok (visited ++ (qs.flatten ++ [x])) := by
  rw [Graph.dfs, foldlM_forall₂_ok _ _ qs h visited]
  simp

theorem bfs_succ (g : Graph) (fuel x : Nat) (qs : List (List Nat))
    (h : List.Forall₂ (fun t q => ∀ acc, g.bfs fuel t acc = Except.ok (acc ++ q))
      (g.targetsNode x) qs) (visited : List Nat) :
    g.bfs (fuel + 1) x visited = Except.ok (visited ++ ([x] ++ qs.flatten)) := by
  rw [Graph.bfs, foldlM_forall₂_ok _ _ qs h (visited ++ [x])]
  simp

/-- C7. When the node-level edge relation is acyclic from `s`, `dfs (s, visit)`
returns, and the sequence it passes to `visit` is the sequence of `dfs` from the
first target of `s`, ..., the sequence of `dfs` from the last target of `s`,
followed by `s` itself: post-order. On the chain A -> B -> C, `dfs` from A
visits C, B, A. -/
theorem dfs_post_order (g : Graph) (s : Nat) (hacyclic : g.acyclicFrom s) :
    (∃ qs, List.Forall₂ g.dfsVisits (g.targetsNode s) qs ∧ g.dfsVisits s (qs.flatten ++ [s]))
      ∧ chainScenario.dfs 3 1 [] = Except.ok [3, 2, 1] :=
  ⟨traversal_visits g g.dfs (fun x q => q ++ [x]) (dfs_succ g) s hacyclic s
    Relation.ReflTransGen.refl, rfl⟩

theorem dfs_post_order_witness :
    chainScenario.acyclicFrom 1
      ∧ (∃ qs, List.Forall₂ chainScenario.dfsVisits (chainScenario.targetsNode 1) qs
          ∧ chainScenario.dfsVisits 1 (qs.flatten ++ [1]))
      ∧ chainScenario.dfs 3 1 [] = Except.ok [3, 2, 1] :=
  ⟨acyclicFrom_of_rank chainScenario (fun n => 10 - n) (by decide) 1,
    dfs_post_order chainScenario 1
      (acyclicFrom_of_rank chainScenario (fun n => 10 - n) (by decide) 1)⟩

/-- C8. When the node-level edge relation is acyclic from `s`, `bfs (s, visit)`
returns, and the sequence it passes to `visit` is `s` itself followed by the
whole sequence of `bfs` from the first target of `s`, ..., the whole sequence of
`bfs` from the last target of `s`: a depth-first pre-order. On the chain
A -> B -> C, `bfs` from A visits A, B, C. -/
theorem bfs_pre_order (g : Graph) (s : Nat) (hacyclic : g.acyclicFrom s) :
    (∃ qs, List.Forall₂ g.bfsVisits (g.targetsNode s) qs ∧ g.bfsVisits s ([s] ++ qs.flatten))
      ∧ chainScenario.bfs 3 1 [] = Except.ok [1, 2, 3] :=
  ⟨traversal_visits g g.bfs (fun x q => [x] ++ q) (bfs_succ g) s hacyclic s
    Relation.ReflTransGen.refl, rfl⟩

theorem bfs_pre_order_witness :
    chainScenario.acyclicFrom 1
      ∧ (∃ qs, List.Forall₂ chainScenario.bfsVisits (chainScenario.targetsNode 1) qs
          ∧ chainScenario.bfsVisits 1 ([1] ++ qs.flatten))
      ∧ chainScenario.bfs 3 1 [] = Except.ok [1, 2, 3] :=
  ⟨acyclicFrom_of_rank chainScenario (fun n => 10 - n) (by decide) 1,
    bfs_pre_order chainScenario 1
      (acyclicFrom_of_rank chainScenario (fun n => 10 - n) (by decide) 1)⟩

/-! ## Edge creation, node-level targets, listeners -/

/-- C11. `addEdge (s, t)` checks nothing about the two pins and does not look for
an equal edge: for all pins it returns the new edge object, the edge collection
is the old one followed by that edge (one element longer), the returned edge is
its last element, and the node collection is untouched. -/
theorem addEdge_appends (g : Graph) (self : Nat) (s t : Pin) :
    (g.addEdge self s t).1.edges = g.edges ++ [Edge.mk self s t]
      ∧ (g.addEdge self s t).1.edges.length = g.edges.length + 1
      ∧ (g.addEdge self s t).2 = some (Edge.mk self s t)
      ∧ (g.addEdge self s t).1.edges.getLast? = (g.addEdge self s t).2
      ∧ (g.addEdge self s t).1.nodes = g.nodes := by
  refine ⟨rfl, ?_, ?_, rfl, rfl⟩
  · simp [Graph.addEdge, OwnedArray.add]
  · simp [Graph.addEdge, OwnedArray.add, OwnedArray.getLast]

/-- C12. `targets (node)` is the list obtained by walking the edge collection in
insertion order, keeping the edges whose source pin is on the node and taking
the node of their target pin; a node occurs in it once per such edge. -/
theorem targetsNode_walk (g : Graph) (n : Nat) :
    g.targetsNode n
        = (g.edges.filter (fun e => decide (e.source.node = n))).map (fun e => e.target.node)
      ∧ ∀ m, (g.targetsNode n).count m
          = (g.edges.filter (fun e => decide (e.source.node = n ∧ e.target.node = m))).length := by
  refine ⟨targetsNode_eq_filter_map g n, fun m => ?_⟩
  rw [targetsNode_eq_filter_map, List.count_eq_countP, List.countP_map, List.countP_filter,
    List.countP_eq_length_filter]
  congr 1
  apply List.filter_congr
  intro e _
  by_cases h1 : e.target.node = m <;> by_cases h2 : e.source.node = n <;> simp [h1, h2]

theorem foldl_addListener (ls : List Nat) (N : Node) :
    (ls.foldl Node.addListener N).listeners = N.listeners ++ ls
      ∧ (ls.foldl Node.addListener N).addr = N.addr := by
  induction ls generalizing N with
  | nil => simp
  | cons l ls ih =>
    rw [List.foldl_cons]
    refine ⟨?_, ?_⟩
    · rw [(ih (N.addListener l)).1]
      simp [Node.addListener, ListenerList.add]
    · rw [(ih (N.addListener l)).2]
      rfl

theorem flow_in_deref {V : Type} (mem : Nat → Node) (g : Graph) (N : Node) (p : Pin) (v : V)
    (hIn : p.pinType = PinType.In) (hN : Memory.deref mem p.node = N)
    (fuel : Nat) (log : List (Call V)) :
    Pin.flow mem g (fuel + 1) p v log
      = Except.ok (log ++ N.listeners.map (fun l => Call.mk l N.addr p v)) := by
  simp [Pin.flow, hIn, hN, Node.flow, listenerList_call_eq]

theorem flow_in_found {V : Type} (g : Graph) (N : Node) (p : Pin) (v : V)
    (hIn : p.pinType = PinType.In) (hN : g.findNode p.node = some N)
    (outside : Nat → Node) (g1 : Graph) (fuel : Nat) (log : List (Call V)) :
    Pin.flow (g.memory outside) g1 (fuel + 1) p v log
      = Except.ok (log ++ N.listeners.map (fun l => Call.mk l N.addr p v)) :=
  flow_in_deref (g.memory outside) g1 N p v hIn (deref_memory g outside p.node N hN) fuel log

/-- C13. `N.flow (p, v)` calls `onData (N, p, v)` once on each registered
listener, in registration order, with the value unchanged; so does `p.flow (v)`
for an input pin `p` whose node is `N` (the node of the collection at the
address `p` refers to, or the node object found there in any memory); and
registering `l1, ..., lk` on a node leaves them registered in that order after
the listeners it already had. -/
theorem node_flow_notifies_in_order {V : Type} (g : Graph) (N : Node) (p : Pin) (v : V)
    (log : List (Call V)) :
    N.flow p v log = log ++ N.listeners.map (fun l => Call.mk l N.addr p v)
      ∧ (p.pinType = PinType.In → g.findNode p.node = some N → ∀ (outside : Nat → Node) fuel,
          Pin.flow (g.memory outside) g (fuel + 1) p v log
            = Except.ok (log ++ N.listeners.map (fun l => Call.mk l N.addr p v)))
      ∧ (p.pinType = PinType.In → ∀ mem : Nat → Node, Memory.deref mem p.node = N → ∀ fuel,
          Pin.flow mem g (fuel + 1) p v log
            = Except.ok (log ++ N.listeners.map (fun l => Call.mk l N.addr p v)))
      ∧ (∀ ls : List Nat, (ls.foldl Node.addListener N).listeners = N.listeners ++ ls) := by
  refine ⟨?_, fun hIn hN outside fuel => flow_in_found g N p v hIn hN outside g fuel log,
    fun hIn mem hN fuel => flow_in_deref mem g N p v hIn hN fuel log,
    fun ls => (foldl_addListener ls N).1⟩
  simp [Node.flow, listenerList_call_eq]

theorem node_flow_notifies_in_order_witness :
    (Pin.mk PinType.In 0 2).pinType = PinType.In
      ∧ fanOutScenario.findNode 2 = some ((Node.new 2 "B" 1 0).addListener 7)
      ∧ ([4, 5, 4].foldl Node.addListener (Node.new 2 "B" 1 0)).flow (Pin.mk PinType.In 0 2) "v" []
          = [Call.mk 4 2 (Pin.mk PinType.In 0 2) "v", Call.mk 5 2 (Pin.mk PinType.In 0 2) "v",
              Call.mk 4 2 (Pin.mk PinType.In 0 2) "v"]
      ∧ Pin.flow (fanOutScenario.memory Memory.blank) fanOutScenario 1
            (Pin.mk PinType.In 0 2) (5 : Nat) []
          = Except.ok ([] ++ ((Node.new 2 "B" 1 0).addListener 7).listeners.map
              (fun l => Call.mk l ((Node.new 2 "B" 1 0).addListener 7).addr
                (Pin.mk PinType.In 0 2) 5)) :=
  ⟨rfl, by decide, rfl,
    (node_flow_notifies_in_order fanOutScenario ((Node.new 2 "B" 1 0).addListener 7)
      (Pin.mk PinType.In 0 2) (5 : Nat) []).2.1 rfl (by decide) Memory.blank 0⟩

/-- C14. For an input pin `p` whose node is `N`, `p.flow (v)` returns having made
one `onData` call per listener of `N`, each with source node `N` and source pin
`p`, and nothing else, whatever the edge collection holds (in particular when
output pins of `N` have outgoing edges) and whatever memory holds at other
addresses; on the chain with a listener on every node, a value flowing into
B.in0 reaches the listener of B only. -/
theorem flow_input_no_auto_publish {V : Type} (g : Graph) (N : Node) (p : Pin) (v : V)
    (hIn : p.pinType = PinType.In) (hN : g.findNode p.node = some N)
    (outside : Nat → Node) (fuel : Nat) (log : List (Call V)) :
    (∃ calls, Pin.flow (g.memory outside) g (fuel + 1) p v log = Except.ok (log ++ calls)
        ∧ calls.length = N.listeners.length
        ∧ (∀ c ∈ calls, c.sourceNode = N.addr ∧ c.sourcePin = p ∧ c.listener ∈ N.listeners)
        ∧ (∀ edges1 : List Edge,
            Pin.flow (g.memory outside) { nodes := g.nodes, edges := edges1 } (fuel + 1) p v log
              = Except.ok (log ++ calls))
        ∧ ∀ (mem : Nat → Node) (g1 : Graph), Memory.deref mem p.node = N →
            Pin.flow mem g1 (fuel + 1) p v log = Except.ok (log ++ calls))
      ∧ Pin.flow (listenedChainScenario.memory Memory.blank) listenedChainScenario 1
            (Pin.mk PinType.In 0 2) "v" []
          = Except.ok [Call.mk 7 2 (Pin.mk PinType.In 0 2) "v"] := by
  refine ⟨⟨N.listeners.map (fun l => Call.mk l N.addr p v),
    flow_in_found g N p v hIn hN outside g fuel log, by simp, ?_, ?_, ?_⟩, rfl⟩
  · intro c hc
    rw [List.mem_map] at hc
    obtain ⟨l, hl, rfl⟩ := hc
    exact ⟨rfl, rfl, hl⟩
  · intro edges1
    exact flow_in_found g N p v hIn hN outside _ fuel log
  · intro mem g1 hmem
    exact flow_in_deref mem g1 N p v hIn hmem fuel log

theorem flow_input_no_auto_publish_witness :
    (Pin.mk PinType.In 0 2).pinType = PinType.In
      ∧ listenedChainScenario.findNode 2 = some ((Node.new 2 "B" 1 1).addListener 7)
      ∧ listenedChainScenario.targets (Pin.mk PinType.Out 0 2) = [Pin.mk PinType.In 0 3]
      ∧ (listenedChainScenario.findNode 3).map Node.listeners = some [8]
      ∧ ∃ calls, Pin.flow (listenedChainScenario.memory Memory.blank) listenedChainScenario 1
              (Pin.mk PinType.In 0 2) (5 : Nat) []
            = Except.ok ([] ++ calls)
          ∧ calls.length = ((Node.new 2 "B" 1 1).addListener 7).listeners.length
          ∧ (∀ c ∈ calls, c.sourceNode = ((Node.new 2 "B" 1 1).addListener 7).addr
              ∧ c.sourcePin = Pin.mk PinType.In 0 2
              ∧ c.listener ∈ ((Node.new 2 "B" 1 1).addListener 7).listeners)
          ∧ (∀ edges1 : List Edge,
              Pin.flow (listenedChainScenario.memory Memory.blank)
                { nodes := listenedChainScenario.nodes, edges := edges1 } 1
                (Pin.mk PinType.In 0 2) (5 : Nat) [] = Except.ok ([] ++ calls))
          ∧ ∀ (mem : Nat → Node) (g1 : Graph),
              Memory.deref mem (Pin.mk PinType.In 0 2).node = (Node.new 2 "B" 1 1).addListener 7 →
              Pin.flow mem g1 1 (Pin.mk PinType.In 0 2) (5 : Nat) [] = Except.ok ([] ++ calls) :=
  ⟨rfl, by decide, by decide, by decide,
    (flow_input_no_auto_publish listenedChainScenario ((Node.new 2 "B" 1 1).addListener 7)
      (Pin.mk PinType.In 0 2) (5 : Nat) rfl (by decide) Memory.blank 0 []).1⟩

/-! ## The edge-validity invariant -/

theorem ownsPin_of_nodes_subset (g g1 : Graph) (p : Pin)
    (hsub : ∀ n ∈ g.nodes, n.addr = p.node → n ∈ g1.nodes) (h : g.ownsPin p) : g1.ownsPin p := by
  obtain ⟨n, hn, ha, hp⟩ := h
  exact ⟨n, hsub n hn ha, ha, hp⟩

theorem edgesValid_empty : Graph.empty.edgesValid := by
  intro e he
  simp [Graph.empty] at he

theorem edgesValid_addNode (g : Graph) (self : Nat) (name : String) (numIns numOuts : Int)
    (h : g.edgesValid) : (g.addNode self name numIns numOuts).1.edgesValid := by
  intro e he
  have hsub : ∀ p : Pin, ∀ n ∈ g.nodes, n.addr = p.node →
      n ∈ (g.addNode self name numIns numOuts).1.nodes := by
    intro p n hn _
    simp [Graph.addNode, OwnedArray.add, hn]
  exact ⟨ownsPin_of_nodes_subset g _ _ (hsub _) (h e he).1,
    ownsPin_of_nodes_subset g _ _ (hsub _) (h e he).2⟩

theorem edgesValid_removeNode (g : Graph) (node : Nat) (h : g.edgesValid) :
    (g.removeNode node).edgesValid := by
  rw [removeNode_eq]
  intro e he
  have hmem := List.mem_filter.mp he
  have hne : e.source.node ≠ node ∧ e.target.node ≠ node := by
    simpa [not_or] using hmem.2
  have hsub : ∀ p : Pin, p.node ≠ node → ∀ n ∈ g.nodes, n.addr = p.node →
      n ∈ g.nodes.eraseP (fun n => n.addr == node) := by
    intro p hp n hn ha
    have hneg : ¬ (n.addr == node) = true := by
      rw [ha]; simpa using hp
    have key : n ∈ g.nodes.eraseP (fun n => n.addr == node) ↔ n ∈ g.nodes :=
      List.mem_eraseP_of_neg hneg
    exact key.mpr hn
  exact ⟨ownsPin_of_nodes_subset g _ _ (hsub _ hne.1) (h e hmem.1).1,
    ownsPin_of_nodes_subset g _ _ (hsub _ hne.2) (h e hmem.1).2⟩

theorem edgesValid_removeEdge (g : Graph) (edge : Edge) (h : g.edgesValid) :
    (g.removeEdge edge).edgesValid := by
  intro e he
  rw [removeEdge_edges] at he
  have he1 := List.mem_of_mem_erase he
  exact ⟨ownsPin_of_nodes_subset g _ _ (fun n hn _ => hn) (h e he1).1,
    ownsPin_of_nodes_subset g _ _ (fun n hn _ => hn) (h e he1).2⟩

theorem edgesValid_addEdge (g : Graph) (self : Nat) (s t : Pin) (h : g.edgesValid)
    (hs : g.ownsPin s) (ht : g.ownsPin t) : (g.addEdge self s t).1.edgesValid := by
  intro e he
  have he1 : e ∈ g.edges ∨ e = Edge.mk self s t := by
    simpa [Graph.addEdge, OwnedArray.add] using he
  rcases he1 with he1 | rfl
  · exact ⟨ownsPin_of_nodes_subset g _ _ (fun n hn _ => hn) (h e he1).1,
      ownsPin_of_nodes_subset g _ _ (fun n hn _ => hn) (h e he1).2⟩
  · exact ⟨ownsPin_of_nodes_subset g _ _ (fun n hn _ => hn) hs,
      ownsPin_of_nodes_subset g _ _ (fun n hn _ => hn) ht⟩

theorem edgesValid_of_reachable (g : Graph) (h : g.Reachable) : g.edgesValid := by
  induction h with
  | empty => exact edgesValid_empty
  | addNode g self name numIns numOuts _ ih => exact edgesValid_addNode g self name numIns numOuts ih
  | removeNode g node _ ih => exact edgesValid_removeNode g node ih
  | removeEdge g edge _ ih => exact edgesValid_removeEdge g edge ih
  | addEdge g self s t _ hs ht ih => exact edgesValid_addEdge g self s t ih hs ht

theorem chainScenario_reachable : chainScenario.Reachable :=
  Graph.Reachable.addEdge _ 11 _ _
    (Graph.Reachable.addEdge _ 10 _ _
      (Graph.Reachable.addNode _ 3 "C" 1 0
        (Graph.Reachable.addNode _ 2 "B" 1 1
          (Graph.Reachable.addNode _ 1 "A" 0 1 Graph.Reachable.empty)))
      (by decide) (by decide))
    (by decide) (by decide)

/-- C15. The edge-validity invariant (the source and target pin of every edge are
owned by nodes currently in the node collection) holds for the empty graph, is
preserved by `addNode`, by `removeNode` for any node, by `removeEdge` for any
edge, and by `addEdge (s, t)` when `s` and `t` are owned by nodes currently in
the graph; hence it holds in every graph reachable by these operations. -/
theorem edge_validity_invariant :
    Graph.empty.edgesValid
      ∧ (∀ (g : Graph) (self : Nat) (name : String) (numIns numOuts : Int),
          g.edgesValid → (g.addNode self name numIns numOuts).1.edgesValid)
      ∧ (∀ (g : Graph) (node : Nat), g.edgesValid → (g.removeNode node).edgesValid)
      ∧ (∀ (g : Graph) (edge : Edge), g.edgesValid → (g.removeEdge edge).edgesValid)
      ∧ (∀ (g : Graph) (self : Nat) (s t : Pin), g.edgesValid → g.ownsPin s → g.ownsPin t →
          (g.addEdge self s t).1.edgesValid)
      ∧ (∀ g : Graph, g.Reachable → g.edgesValid) :=
  ⟨edgesValid_empty, edgesValid_addNode, edgesValid_removeNode, edgesValid_removeEdge,
    edgesValid_addEdge, edgesValid_of_reachable⟩

theorem edge_validity_invariant_witness :
    chainScenario.Reachable
      ∧ chainScenario.edgesValid
      ∧ (chainScenario.removeNode 2).edgesValid
      ∧ (chainScenario.removeNode 2).nodes.map Node.addr = [1, 3]
      ∧ chainScenario.ownsPin (Pin.mk PinType.Out 0 1)
      ∧ chainScenario.ownsPin (Pin.mk PinType.In 0 3)
      ∧ (chainScenario.addEdge 12 (Pin.mk PinType.Out 0 1) (Pin.mk PinType.In 0 3)).1.edgesValid
      ∧ ¬ (chainScenario.addEdge 12 (Pin.mk PinType.Out 0 9) (Pin.mk PinType.In 0 3)).1.edgesValid :=
  ⟨chainScenario_reachable,
    edge_validity_invariant.2.2.2.2.2 chainScenario chainScenario_reachable,
    edge_validity_invariant.2.2.1 chainScenario 2
      (edge_validity_invariant.2.2.2.2.2 chainScenario chainScenario_reachable),
    by decide, by decide, by decide,
    edge_validity_invariant.2.2.2.2.1 chainScenario 12 _ _
      (edge_validity_invariant.2.2.2.2.2 chainScenario chainScenario_reachable)
      (by decide) (by decide),
    by decide⟩

/-! ## Termination and its failure -/

/-- C16. When the node-level edge relation has no cycle among the nodes reachable
from `s`, the recursion of the traversals from `s` is well-founded, and
`dfs (s, visit)` and `bfs (s, visit)` return, for every recursion budget from
some bound on, after passing a finite sequence of nodes to `visit`. -/
theorem traversals_terminate (g : Graph) (s : Nat) (hacyclic : g.acyclicFrom s) :
    WellFounded (fun a b : {x // Relation.ReflTransGen g.step s x} => g.step b.1 a.1)
      ∧ (∃ fuel q, ∀ fuel1, fuel ≤ fuel1 → ∀ visited,
          g.dfs fuel1 s visited = Except.ok (visited ++ q))
      ∧ (∃ fuel q, ∀ fuel1, fuel ≤ fuel1 → ∀ visited,
          g.bfs fuel1 s visited = Except.ok (visited ++ q)) := by
  refine ⟨?_, ?_, ?_⟩
  · exact Subrelation.wf (fun h => Relation.TransGen.single h)
      (acyclicFrom_wellFounded g s hacyclic)
  · obtain ⟨qs, _, fuel, h⟩ := traversal_visits g g.dfs (fun x q => q ++ [x]) (dfs_succ g) s
      hacyclic s Relation.ReflTransGen.refl
    exact ⟨fuel, _, h⟩
  · obtain ⟨qs, _, fuel, h⟩ := traversal_visits g g.bfs (fun x q => [x] ++ q) (bfs_succ g) s
      hacyclic s Relation.ReflTransGen.refl
    exact ⟨fuel, _, h⟩

theorem traversals_terminate_witness :
    chainScenario.acyclicFrom 1
      ∧ WellFounded (fun a b : {x // Relation.ReflTransGen chainScenario.step 1 x} =>
          chainScenario.step b.1 a.1)
      ∧ (∃ fuel q, ∀ fuel1, fuel ≤ fuel1 → ∀ visited,
          chainScenario.dfs fuel1 1 visited = Except.ok (visited ++ q))
      ∧ (∃ fuel q, ∀ fuel1, fuel ≤ fuel1 → ∀ visited,
          chainScenario.bfs fuel1 1 visited = Except.ok (visited ++ q)) :=
  ⟨acyclicFrom_of_rank chainScenario (fun n => 10 - n) (by decide) 1,
    traversals_terminate chainScenario 1
      (acyclicFrom_of_rank chainScenario (fun n => 10 - n) (by decide) 1)⟩

theorem eraseP_addr_eq_filter (node : Nat) (ns : List Node) (hd : (ns.map Node.addr).Nodup) :
    ns.eraseP (fun n => n.addr == node) = ns.filter (fun n => !(n.addr == node)) := by
  induction ns with
  | nil => rfl
  | cons n ns ih =>
    rw [List.map_cons, List.nodup_cons] at hd
    by_cases hn : n.addr = node
    · have hb : (n.addr == node) = true := by simpa using hn
      simp only [List.eraseP_cons, hb, cond_true, List.filter_cons, Bool.not_true]
      rw [if_neg (by simp)]
      symm
      rw [List.filter_eq_self]
      intro m hm
      have hne : m.addr ≠ node := by
        intro hmn
        exact hd.1 (List.mem_map.mpr ⟨m, hm, by rw [hmn, hn]⟩)
      simpa using hne
    · have hb : (n.addr == node) = false := by simpa using hn
      simp only [List.eraseP_cons, hb, cond_false, List.filter_cons, Bool.not_false, if_true]
      rw [ih hd.2]

/-- C18. After `removeNode (n)` the edge collection is the old one with the edges
touching `n` filtered out (the others kept in order, unchanged), and the node
collection is the old one without the slot of `n` (the other node objects kept
in order, unchanged); when node addresses are pairwise different that is the old
node collection with `n` filtered out. -/
theorem removeNode_frame (g : Graph) (n : Nat) :
    (g.removeNode n).edges
        = g.edges.filter (fun e => !decide (e.source.node = n ∨ e.target.node = n))
      ∧ (g.removeNode n).nodes = g.nodes.eraseP (fun m => m.addr == n)
      ∧ (∀ m ∈ g.nodes, m.addr ≠ n → m ∈ (g.removeNode n).nodes)
      ∧ (g.distinctNodes →
          (g.removeNode n).nodes = g.nodes.filter (fun m => !(m.addr == n))) := by
  rw [removeNode_eq]
  refine ⟨rfl, rfl, ?_, fun hd => eraseP_addr_eq_filter n g.nodes hd⟩
  intro m hm hne
  have hneg : ¬ (m.addr == n) = true := by simpa using hne
  have key : m ∈ g.nodes.eraseP (fun m => m.addr == n) ↔ m ∈ g.nodes :=
    List.mem_eraseP_of_neg hneg
  exact key.mpr hm

theorem removeNode_frame_witness :
    chainScenario.distinctNodes
      ∧ (chainScenario.removeNode 3).edges
          = [Edge.mk 10 (Pin.mk PinType.Out 0 1) (Pin.mk PinType.In 0 2)]
      ∧ (chainScenario.removeNode 3).nodes = [Node.new 1 "A" 0 1, Node.new 2 "B" 1 1]
      ∧ (chainScenario.removeNode 3).nodes
          = chainScenario.nodes.filter (fun m => !(m.addr == 3)) :=
  ⟨by decide, by decide, by decide, (removeNode_frame chainScenario 3).2.2.2 (by decide)⟩

/-! ## Visit counts and edge paths -/

theorem isPath_nil (g : Graph) (s m : Nat) : g.isPath s m [] = true ↔ s = m := by
  simp [Graph.isPath]

theorem isPath_cons (g : Graph) (s m : Nat) (ie : Nat × Edge) (rest : List (Nat × Edge)) :
    g.isPath s m (ie :: rest) = true
      ↔ ie ∈ g.indexedEdges ∧ ie.2.source.node = s ∧ g.isPath ie.2.target.node m rest = true := by
  simp [Graph.isPath]

theorem indexedEdges_nodup (g : Graph) : g.indexedEdges.Nodup := by
  apply List.Nodup.of_map Prod.fst
  rw [Graph.indexedEdges, List.enum_map_fst]
  exact List.nodup_range _

theorem targetsNode_eq_indexed (g : Graph) (a : Nat) :
    g.targetsNode a
      = (g.indexedEdges.filter (fun ie => decide (ie.2.source.node = a))).map
          (fun ie => ie.2.target.node) := by
  rw [targetsNode_eq_filter_map]
  have h : g.edges = g.indexedEdges.map Prod.snd := (List.enum_map_snd g.edges).symm
  conv_lhs => rw [h]
  rw [List.filter_map, List.map_map]
  rfl

theorem forall₂_visits_fuel (run : Nat → Nat → List Nat → Except Fault (List Nat))
    (ts : List Nat) (qs : List (List Nat)) (h : List.Forall₂ (Visits run) ts qs) :
    ∃ fuel, ∀ fuel1, fuel ≤ fuel1 →
      List.Forall₂ (fun t q => ∀ acc, run fuel1 t acc = Except.ok (acc ++ q)) ts qs := by
  induction h with
  | nil => exact ⟨0, fun _ _ => List.Forall₂.nil⟩
  | @cons t q ts qs hhead _ ih =>
    obtain ⟨fuelT, hT⟩ := hhead
    obtain ⟨fuel, hfuel⟩ := ih
    refine ⟨max fuelT fuel, fun fuel1 h1 => ?_⟩
    exact List.Forall₂.cons (hT fuel1 (le_trans (le_max_left _ _) h1))
      (hfuel fuel1 (le_trans (le_max_right _ _) h1))

theorem visits_of_targets (g : Graph) (run : Nat → Nat → List Nat → Except Fault (List Nat))
    (combine : Nat → List Nat → List Nat)
    (hrun : ∀ fuel x qs,
      List.Forall₂ (fun t q => ∀ acc, run fuel t acc = Except.ok (acc ++ q)) (g.targetsNode x) qs →
      ∀ visited, run (fuel + 1) x visited = Except.ok (visited ++ combine x qs.flatten))
    (a : Nat) (qs : List (List Nat)) (h : List.Forall₂ (Visits run) (g.targetsNode a) qs) :
    Visits run a (combine a qs.flatten) := by
  obtain ⟨fuel, hfuel⟩ := forall₂_visits_fuel run _ _ h
  refine ⟨fuel + 1, fun fuel1 h1 visited => ?_⟩
  obtain ⟨k, rfl⟩ : ∃ k, fuel1 = k + 1 := ⟨fuel1 - 1, by omega⟩
  exact hrun k a qs (hfuel k (by omega)) visited

theorem paths_through_edges (g : Graph) (m : Nat) (L : List (Nat × Edge)) (hnd : L.Nodup)
    (hP : ∀ ie ∈ L, g.visitsMatchPaths m ie.2.target.node) :
    ∃ (qds qbs : List (List Nat)) (PS : List (List (Nat × Edge))),
      List.Forall₂ g.dfsVisits (L.map (fun ie => ie.2.target.node)) qds
        ∧ List.Forall₂ g.bfsVisits (L.map (fun ie => ie.2.target.node)) qbs
        ∧ PS.Nodup
        ∧ (∀ es, es ∈ PS ↔ ∃ ie ∈ L, ∃ rest, es = ie :: rest
              ∧ g.isPath ie.2.target.node m rest = true)
        ∧ qds.flatten.count m = PS.length ∧ qbs.flatten.count m = PS.length := by
  induction L with
  | nil =>
    exact ⟨[], [], [], List.Forall₂.nil, List.Forall₂.nil, List.nodup_nil, by simp, rfl, rfl⟩
  | cons ie L ih =>
    rw [List.nodup_cons] at hnd
    obtain ⟨qd, qb, hd, hb, hcount, ps, hps, hmem, hlen⟩ := hP ie (by simp)
    obtain ⟨qds, qbs, PS, hds, hbs, hPS, hPSmem, hcd, hcb⟩ :=
      ih hnd.2 (fun ie1 h1 => hP ie1 (by simp [h1]))
    refine ⟨qd :: qds, qb :: qbs, ps.map (fun rest => ie :: rest) ++ PS,
      List.Forall₂.cons hd hds, List.Forall₂.cons hb hbs, ?_, ?_, ?_, ?_⟩
    · refine List.Nodup.append (hps.map (fun x y hxy => List.tail_eq_of_cons_eq hxy)) hPS ?_
      intro es h1 h2
      rw [List.mem_map] at h1
      obtain ⟨rest, _, rfl⟩ := h1
      obtain ⟨ie1, hie1, rest1, heq, _⟩ := (hPSmem _).mp h2
      have : ie = ie1 := List.head_eq_of_cons_eq heq
      exact hnd.1 (this ▸ hie1)
    · intro es
      rw [List.mem_append, List.mem_map, hPSmem]
      constructor
      · rintro (⟨rest, hrest, rfl⟩ | ⟨ie1, hie1, rest, rfl, hpath⟩)
        · exact ⟨ie, by simp, rest, rfl, (hmem rest).mp hrest⟩
        · exact ⟨ie1, by simp [hie1], rest, rfl, hpath⟩
      · rintro ⟨ie1, hie1, rest, rfl, hpath⟩
        rcases List.mem_cons.mp hie1 with rfl | hin
        · exact Or.inl ⟨rest, (hmem rest).mpr hpath, rfl⟩
        · exact Or.inr ⟨ie1, hin, rest, rfl, hpath⟩
    · rw [List.flatten_cons, List.count_append, List.length_append, List.length_map, hcd, hlen]
    · rw [List.flatten_cons, List.count_append, List.length_append, List.length_map, hcb,
        ← hcount, hlen]

theorem visitsMatchPaths_step (g : Graph) (m a : Nat)
    (hP : ∀ t, g.step a t → g.visitsMatchPaths m t) : g.visitsMatchPaths m a := by
  have hnd : (g.indexedEdges.filter (fun ie => decide (ie.2.source.node = a))).Nodup :=
    (indexedEdges_nodup g).filter _
  obtain ⟨qds, qbs, PS, hds, hbs, hPS, hPSmem, hcd, hcb⟩ :=
    paths_through_edges g m _ hnd (fun ie hie => by
      have h := List.mem_filter.mp hie
      have hin : ie.2 ∈ g.edges := by
        have : ie.2 ∈ g.indexedEdges.map Prod.snd := List.mem_map.mpr ⟨ie, h.1, rfl⟩
        rwa [Graph.indexedEdges, List.enum_map_snd] at this
      exact hP _ ⟨ie.2, hin, by simpa using h.2, rfl⟩)
  rw [← targetsNode_eq_indexed] at hds hbs
  have hdfs : g.dfsVisits a (qds.flatten ++ [a]) :=
    visits_of_targets g g.dfs (fun x q => q ++ [x]) (dfs_succ g) a qds hds
  have hbfs : g.bfsVisits a ([a] ++ qbs.flatten) :=
    visits_of_targets g g.bfs (fun x q => [x] ++ q) (bfs_succ g) a qbs hbs
  have hnil : ([] : List (Nat × Edge)) ∉ PS := by
    intro h
    obtain ⟨_, _, _, heq, _⟩ := (hPSmem _).mp h
    exact List.noConfusion heq
  have hmemAll : ∀ es, es ∈ (if a = m then [[]] else []) ++ PS ↔ g.isPath a m es = true := by
    intro es
    rw [List.mem_append, hPSmem]
    cases es with
    | nil =>
      rw [isPath_nil]
      constructor
      · rintro (h | ⟨_, _, _, heq, _⟩)
        · by_contra hne
          simp [hne] at h
        · exact List.noConfusion heq
      · intro h
        left
        simp [h]
    | cons ie rest =>
      rw [isPath_cons]
      constructor
      · rintro (h | ⟨ie1, hie1, rest1, heq, hpath⟩)
        · by_cases ham : a = m <;> simp [ham] at h
        · obtain ⟨rfl, rfl⟩ := List.cons.inj heq
          have h := List.mem_filter.mp hie1
          exact ⟨h.1, by simpa using h.2, hpath⟩
      · rintro ⟨hin, hsrc, hpath⟩
        exact Or.inr ⟨ie, List.mem_filter.mpr ⟨hin, by simpa using hsrc⟩, rest, rfl, hpath⟩
  refine ⟨qds.flatten ++ [a], [a] ++ qbs.flatten, hdfs, hbfs, ?_,
    (if a = m then [[]] else []) ++ PS, ?_, hmemAll, ?_⟩
  · rw [List.count_append, List.count_append, hcd, hcb, Nat.add_comm]
  · refine List.Nodup.append ?_ hPS ?_
    · by_cases ham : a = m <;> simp [ham]
    · intro es h1 h2
      by_cases ham : a = m
      · simp only [ham, if_true, List.mem_singleton] at h1
        exact hnil (h1 ▸ h2)
      · simp [ham] at h1
  · rw [List.count_append, hcd, List.length_append, Nat.add_comm]
    by_cases ham : a = m
    · subst ham; simp
    · have : ¬ (a == m) = true := by simpa using ham
      simp [ham, List.count_cons, this]

theorem visitsMatchPaths_of_acyclic (g : Graph) (s : Nat) (h : g.acyclicFrom s) (m : Nat) :
    ∀ x, Relation.ReflTransGen g.step s x → g.visitsMatchPaths m x := by
  intro x hx
  have key : ∀ a : {x // Relation.ReflTransGen g.step s x}, g.visitsMatchPaths m a.1 := by
    intro a
    induction a using (acyclicFrom_wellFounded g s h).induction with
    | _ a ih =>
      exact visitsMatchPaths_step g m a.1 (fun t ht =>
        ih ⟨t, Relation.ReflTransGen.tail a.2 ht⟩ (Relation.TransGen.single ht))
  exact key ⟨x, hx⟩

/-- C19. When the node-level edge relation is acyclic from `s`, `dfs (s, visit)`
and `bfs (s, visit)` both return, and for every node `m` they call `visit (m)`
the same number of times, which is the number of distinct edge paths from `s`
to `m` (the empty path counted for `m = s`). In the diamond started at A both
visit D twice; with two parallel edges A -> B both visit B twice. -/
theorem traversal_visit_count (g : Graph) (s : Nat) (hacyclic : g.acyclicFrom s) (m : Nat) :
    (∃ qd qb, g.dfsVisits s qd ∧ g.bfsVisits s qb
        ∧ qd.count m = qb.count m ∧ g.pathCount s m (qd.count m))
      ∧ diamondScenario.dfs 3 1 [] = Except.ok [4, 2, 4, 3, 1]
      ∧ diamondScenario.bfs 3 1 [] = Except.ok [1, 2, 4, 3, 4]
      ∧ parallelScenario.dfs 2 1 [] = Except.ok [2, 2, 1]
      ∧ parallelScenario.bfs 2 1 [] = Except.ok [1, 2, 2] :=
  ⟨visitsMatchPaths_of_acyclic g s hacyclic m s Relation.ReflTransGen.refl, rfl, rfl, rfl, rfl⟩

theorem traversal_visit_count_witness :
    diamondScenario.acyclicFrom 1
      ∧ ([4, 2, 4, 3, 1] : List Nat).count 4 = 2
      ∧ ([1, 2, 4, 3, 4] : List Nat).count 4 = 2
      ∧ (∃ qd qb, diamondScenario.dfsVisits 1 qd ∧ diamondScenario.bfsVisits 1 qb
          ∧ qd.count 4 = qb.count 4 ∧ diamondScenario.pathCount 1 4 (qd.count 4))
      ∧ diamondScenario.dfs 3 1 [] = Except.ok [4, 2, 4, 3, 1]
      ∧ diamondScenario.bfs 3 1 [] = Except.ok [1, 2, 4, 3, 4]
      ∧ parallelScenario.dfs 2 1 [] = Except.ok [2, 2, 1]
      ∧ parallelScenario.bfs 2 1 [] = Except.ok [1, 2, 2] :=
  ⟨acyclicFrom_of_rank diamondScenario (fun n => 10 - n) (by decide) 1, by decide, by decide,
    traversal_visit_count diamondScenario 1
      (acyclicFrom_of_rank diamondScenario (fun n => 10 - n) (by decide) 1) 4⟩

/-! ## Node-level and pin-level targets -/

theorem flatMap_perm_cons_at {α β : Type} (F G : α → List β) (t : β) (p0 : α) :
    ∀ (l : List α), l.Nodup → p0 ∈ l → (∀ p ∈ l, p ≠ p0 → F p = G p) → F p0 = t :: G p0 →
      (l.flatMap F).Perm (t :: l.flatMap G) := by
  intro l
  induction l with
  | nil => intro _ hmem; simp at hmem
  | cons q qs ih =>
    intro hnd hmem hFG h0
    rw [List.nodup_cons] at hnd
    rw [List.flatMap_cons, List.flatMap_cons]
    by_cases hq : q = p0
    · subst hq
      have hrest : qs.flatMap F = qs.flatMap G := by
        apply List.flatMap_congr
        intro p hp
        exact hFG p (by simp [hp]) (fun h => hnd.1 (h ▸ hp))
      rw [h0, hrest]
      exact List.Perm.refl _
    · have hin : p0 ∈ qs := by
        rcases List.mem_cons.mp hmem with h | h
        · exact absurd h.symm hq
        · exact h
      rw [hFG q (by simp) hq]
      exact (List.Perm.append_left (G q)
        (ih hnd.2 hin (fun p hp hne => hFG p (by simp [hp]) hne) h0)).trans List.perm_middle

theorem targets_node_perm_aux (N : Node) (hnodup : N.outs.Nodup)
    (hback : ∀ p ∈ N.outs, p.node = N.addr) (E : List Edge)
    (hsrc : ∀ e ∈ E, e.source.node = N.addr → e.source ∈ N.outs) :
    ((E.filter (fun e => decide (e.source.node = N.addr))).map (fun e => e.target.node)).Perm
      (N.outs.flatMap (fun p =>
        ((E.filter (fun e => decide (e.source = p))).map Edge.target).map Pin.node)) := by
  induction E with
  | nil => simp
  | cons e E ih =>
    have ihE := ih (fun e1 h1 => hsrc e1 (by simp [h1]))
    by_cases hs : e.source.node = N.addr
    · have hmem : e.source ∈ N.outs := hsrc e (by simp) hs
      have hperm := flatMap_perm_cons_at
        (fun p => (((e :: E).filter (fun e => decide (e.source = p))).map Edge.target).map Pin.node)
        (fun p => ((E.filter (fun e => decide (e.source = p))).map Edge.target).map Pin.node)
        e.target.node e.source N.outs hnodup hmem
        (fun p _ hne => by
          have : ¬ e.source = p := fun h => hne h.symm
          simp [List.filter_cons, this])
        (by simp [List.filter_cons])
      refine List.Perm.trans ?_ hperm.symm
      simp only [List.filter_cons, hs, decide_True, if_true, List.map_cons]
      exact List.Perm.cons _ ihE
    · have hcongr : N.outs.flatMap (fun p =>
          (((e :: E).filter (fun e => decide (e.source = p))).map Edge.target).map Pin.node)
          = N.outs.flatMap (fun p =>
          ((E.filter (fun e => decide (e.source = p))).map Edge.target).map Pin.node) := by
        apply List.flatMap_congr
        intro p hp
        have : ¬ e.source = p := fun h => hs (by rw [h]; exact hback p hp)
        simp [List.filter_cons, this]
      rw [hcongr]
      simp only [List.filter_cons, hs, decide_False]
      exact ihE

theorem new_outs_wellFormed (self : Nat) (name : String) (numIns numOuts : Int) :
    (Node.new self name numIns numOuts).outs.Nodup
      ∧ ∀ p ∈ (Node.new self name numIns numOuts).outs,
          p.node = (Node.new self name numIns numOuts).addr := by
  simp only [Node.new, makePins_eq]
  refine ⟨?_, ?_⟩
  · refine List.Nodup.map ?_ (List.nodup_range _)
    intro i j hij
    have h := congrArg Pin.order hij
    simpa using h
  · intro p hp
    rw [List.mem_map] at hp
    obtain ⟨i, _, rfl⟩ := hp
    rfl

/-- C20. For a node `N` whose output pins are pairwise different and refer back
to `N`, in a graph where the source pin of every edge leaving `N` is one of the
output pins of `N`, `targets (N)` is a permutation of the concatenation, over the
output pins of `N` in pin order, of the nodes of `targets (pin)`, so both have
the same length; the two lists can differ as sequences: with the edges added as
out1 -> X then out0 -> Y they are `[X, Y]` and `[Y, X]`. -/
theorem targets_node_perm_pins (g : Graph) (N : Node) (hnodup : N.outs.Nodup)
    (hback : ∀ p ∈ N.outs, p.node = N.addr)
    (hsrc : ∀ e ∈ g.edges, e.source.node = N.addr → e.source ∈ N.outs) :
    (g.targetsNode N.addr).Perm (N.outs.flatMap (fun p => (g.targets p).map Pin.node))
      ∧ (g.targetsNode N.addr).length
          = (N.outs.flatMap (fun p => (g.targets p).map Pin.node)).length
      ∧ crossedScenario.targetsNode 1 = [2, 3]
      ∧ (Node.new 1 "A" 0 2).outs.flatMap (fun p => (crossedScenario.targets p).map Pin.node)
          = [3, 2] := by
  have hperm : (g.targetsNode N.addr).Perm
      (N.outs.flatMap (fun p => (g.targets p).map Pin.node)) := by
    rw [targetsNode_eq_filter_map]
    have h := targets_node_perm_aux N hnodup hback g.edges hsrc
    have hfun : (fun p => (g.targets p).map Pin.node)
        = (fun p => ((g.edges.filter (fun e => decide (e.source = p))).map Edge.target).map
            Pin.node) := by
      funext p
      rw [targets_filter_map]
    rw [hfun]
    exact h
  exact ⟨hperm, hperm.length_eq, by decide, by decide⟩

theorem targets_node_perm_pins_witness :
    (Node.new 1 "A" 0 2).outs.Nodup
      ∧ (∀ p ∈ (Node.new 1 "A" 0 2).outs, p.node = (Node.new 1 "A" 0 2).addr)
      ∧ (∀ e ∈ crossedScenario.edges, e.source.node = (Node.new 1 "A" 0 2).addr →
          e.source ∈ (Node.new 1 "A" 0 2).outs)
      ∧ crossedScenario.findNode 1 = some (Node.new 1 "A" 0 2)
      ∧ (crossedScenario.targetsNode (Node.new 1 "A" 0 2).addr).Perm
          ((Node.new 1 "A" 0 2).outs.flatMap (fun p => (crossedScenario.targets p).map Pin.node))
      ∧ crossedScenario.targetsNode 1
          ≠ (Node.new 1 "A" 0 2).outs.flatMap (fun p => (crossedScenario.targets p).map Pin.node) :=
  ⟨by decide, by decide, by decide, by decide,
    (targets_node_perm_pins crossedScenario (Node.new 1 "A" 0 2) (by decide) (by decide)
      (by decide)).1,
    by decide⟩

end JuceGraph
